import Mathlib

/-
Verification of the waveform-to-pixel pipeline of the Oscilloscope component
(Source/Oscilloscope.h, Source/Oscilloscope.cpp).

Modelling conventions:
* Audio samples and coordinate values are modelled as exact rationals (ℚ).
  Where a claim is specifically about IEEE floating-point special values
  (infinity / NaN), the type `FP` below models a float as either a finite
  rational or one of the special values; rounding, overflow and signed zeros
  are abstracted, which is exact for the magnitudes arising in these claims.
* The source fields xRatio, yRatio, xRatioInv, yRatioInv are rendered here as
  ratioX, ratioY, ratioXInv, ratioYInv.
* Loops are translated as structurally recursive functions on an explicit
  iteration budget (`fuel`).  The budget is always instantiated with
  `(limit - i).toNat`, and every loop body increases `i` by at least one per
  iteration while the guard requires `i < limit`, so the budget can never be
  exhausted before the source loop's own guard fails; lemmas
  `outerAggAux_fuel_growth` below certify that granting more fuel
  does not change the result.
-/

/-- Aggregation methods, from the enum in Oscilloscope.h (lines 20-25). -/
inductive AggregationMethod where
  | NearestSample
  | Maximum
  | Average
deriving DecidableEq

/-- JUCE jmin on ints: jmin(a, b) = b < a ? b : a. -/
def jminI (a b : ℤ) : ℤ := if b < a then b else a

/-- JUCE jlimit: jlimit(lower, upper, v) = v < lower ? lower : (upper < v ? upper : v). -/
def jlimit (lower upper v : ℚ) : ℚ := if v < lower then lower else if upper < v then upper else v

/-- C++ static_cast<int> applied to a float value: truncation toward zero. -/
def truncToInt (q : ℚ) : ℤ := if 0 ≤ q then ⌊q⌋ else ⌈q⌉

/-- Oscilloscope::toPxFromTime (Oscilloscope.cpp:283-286):
`(xInSamples - minXsamples) * xRatio`, with exact arithmetic. -/
def toPxFromTime (minX : ℤ) (rx : ℚ) (i : ℤ) : ℚ := ((i - minX : ℤ) : ℚ) * rx

/-- Oscilloscope::toTimeFromPx (Oscilloscope.cpp:279-282):
`static_cast<int> (xInPixels * xRatioInv) + minXsamples`. -/
def toTimeFromPx (minX : ℤ) (rxInv : ℚ) (xPx : ℚ) : ℤ := truncToInt (xPx * rxInv) + minX

/-- Oscilloscope::toPxFromAmp (Oscilloscope.cpp:275-278):
`(amplitudeMax - jlimit (-amplitudeMax, amplitudeMax, amplitude)) * yRatio`. -/
def toPxFromAmp (amplitudeMax ry : ℚ) (a : ℚ) : ℚ :=
  (amplitudeMax - jlimit (-amplitudeMax) amplitudeMax a) * ry

/-- Oscilloscope::toAmpFromPx (Oscilloscope.cpp:271-274):
`amplitudeMax - yInPixels * yRatioInv`. -/
def toAmpFromPx (amplitudeMax ryInv : ℚ) (yPx : ℚ) : ℚ := amplitudeMax - yPx * ryInv

/-- Accumulator update of the non-average inner loop of
Oscilloscope::paintWaveform (cpp:163-170): `if (std::abs(y[i]) > std::abs(yMax)) yMax = y[i]`. -/
def maxUpdate (y : ℤ → ℚ) (m : ℚ) (j : ℤ) : ℚ := if |m| < |y j| then y j else m

/-- Accumulator update of the average inner loop of
Oscilloscope::paintWaveform (cpp:149-157): `ySum += y[i]; count++`. -/
def avgUpdate (y : ℤ → ℚ) (s : ℚ × ℤ) (j : ℤ) : ℚ × ℤ := (s.1 + y j, s.2 + 1)

/-- Accumulator update that merely records the visited sample indices; used to
name the pixel-column runs that the inner loops sweep over. -/
def runUpdate (l : List ℤ) (j : ℤ) : List ℤ := l ++ [j]

/-- The inner loop of Oscilloscope::paintWaveform
(`while (i < limit && curPx < nextPx) { i++; curPx = toPxFromTime (i); <accumulate y[i]> }`),
generic in the accumulator so that the max, average and index-recording shapes
share the common control flow.  Returns the final (i, curPx, accumulator). -/
def innerAggAux {σ : Type} (upd : σ → ℤ → σ) (limit minX : ℤ) (rx nextPx : ℚ) :
    ℕ → ℤ → ℚ → σ → ℤ × ℚ × σ
  | 0, i, curPx, acc => (i, curPx, acc)
  | fuel + 1, i, curPx, acc =>
    if i < limit ∧ curPx < nextPx then
      innerAggAux upd limit minX rx nextPx fuel (i + 1) (toPxFromTime minX rx (i + 1)) (upd acc (i + 1))
    else (i, curPx, acc)

/-- The inner loop with its exact iteration budget. -/
def innerAgg {σ : Type} (upd : σ → ℤ → σ) (limit minX : ℤ) (rx nextPx : ℚ)
    (i : ℤ) (curPx : ℚ) (acc : σ) : ℤ × ℚ × σ :=
  innerAggAux upd limit minX rx nextPx (limit - i).toNat i curPx acc

/-- The outer loop of Oscilloscope::paintWaveform (cpp:144-174):
`while (i < limit) { nextPx = curPx + 1; if (average) {...} else {...}; i++; lineTo (curPx, ...) }`.
Each iteration runs one inner aggregation loop, emits one vertex
`(curPx, toPxFromAmp aggregatedValue)`, and resumes at the following sample. -/
def outerAggAux (method : AggregationMethod) (y : ℤ → ℚ) (limit minX : ℤ)
    (rx amp ry : ℚ) : ℕ → ℤ → ℚ → List (ℚ × ℚ)
  | 0, _, _ => []
  | fuel + 1, i, curPx =>
    if i < limit then
      let nextPx := curPx + 1
      match method with
      | AggregationMethod.Average =>
        let r := innerAgg (avgUpdate y) limit minX rx nextPx i curPx (y i, 1)
        (r.2.1, toPxFromAmp amp ry (r.2.2.1 / (r.2.2.2 : ℚ))) ::
          outerAggAux method y limit minX rx amp ry fuel (r.1 + 1) r.2.1
      | _ =>
        let r := innerAgg (maxUpdate y) limit minX rx nextPx i curPx (y i)
        (r.2.1, toPxFromAmp amp ry r.2.2) ::
          outerAggAux method y limit minX rx amp ry fuel (r.1 + 1) r.2.1
    else []

/-- The per-channel polyline built by Oscilloscope::paintWaveform (cpp:134-174):
start vertex at `(toPxFromTime minX, toPxFromAmp y[minX])` followed by one
vertex per outer-loop iteration, with `limit = maxXsamples - 1`. -/
def paintWaveformVertices (method : AggregationMethod) (y : ℤ → ℚ) (minX maxX : ℤ)
    (rx amp ry : ℚ) : List (ℚ × ℚ) :=
  (toPxFromTime minX rx minX, toPxFromAmp amp ry (y minX)) ::
    outerAggAux method y (maxX - 1) minX rx amp ry ((maxX - 1) - minX).toNat minX
      (toPxFromTime minX rx minX)

/-- The pixel-column run decomposition induced by the paintWaveform loops: the
same control flow as `outerAggAux`, recording for each outer iteration the list
of sample indices its inner loop sweeps (the seed index `i` followed by every
index the inner loop visits). -/
def runsAux (limit minX : ℤ) (rx : ℚ) : ℕ → ℤ → ℚ → List (List ℤ)
  | 0, _, _ => []
  | fuel + 1, i, curPx =>
    if i < limit then
      let r := innerAgg runUpdate limit minX rx (curPx + 1) i curPx [i]
      r.2.2 :: runsAux limit minX rx fuel (r.1 + 1) r.2.1
    else []

/-- The signed value of largest absolute magnitude of a run of samples, seeded
with the first sample, exactly as the non-average branch accumulates it. -/
def runPeak (y : ℤ → ℚ) : List ℤ → ℚ
  | [] => 0
  | j :: t => t.foldl (maxUpdate y) (y j)

/-- A float value: either an exact finite rational or one of the IEEE special
values.  Rounding, overflow and signed zeros are abstracted; the
finite / infinite / NaN classification of the operations below agrees with
IEEE-754 for the magnitudes arising in the claims. -/
inductive FP where
  | fin : ℚ → FP
  | inf : FP
  | ninf : FP
  | nan : FP
deriving DecidableEq

/-- Float comparison `<`: false on any NaN operand. -/
def FP.lt : FP → FP → Bool
  | nan, _ => false
  | _, nan => false
  | ninf, ninf => false
  | ninf, _ => true
  | _, ninf => false
  | inf, _ => false
  | _, inf => true
  | fin a, fin b => decide (a < b)

/-- Float negation. -/
def FP.neg : FP → FP
  | nan => nan
  | inf => ninf
  | ninf => inf
  | fin a => fin (-a)

/-- Float addition (exact on finite values). -/
def FP.add : FP → FP → FP
  | nan, _ => nan
  | _, nan => nan
  | inf, ninf => nan
  | ninf, inf => nan
  | inf, _ => inf
  | _, inf => inf
  | ninf, _ => ninf
  | _, ninf => ninf
  | fin a, fin b => fin (a + b)

/-- Float subtraction. -/
def FP.sub (a b : FP) : FP := a.add b.neg

/-- Float absolute value. -/
def FP.abs : FP → FP
  | nan => nan
  | inf => inf
  | ninf => inf
  | fin a => fin |a|

/-- Float multiplication (exact on finite values); `±∞ * 0 = NaN`. -/
def FP.mul : FP → FP → FP
  | nan, _ => nan
  | _, nan => nan
  | inf, inf => inf
  | inf, ninf => ninf
  | ninf, inf => ninf
  | ninf, ninf => inf
  | inf, fin b => if b = 0 then nan else if 0 < b then inf else ninf
  | fin a, inf => if a = 0 then nan else if 0 < a then inf else ninf
  | ninf, fin b => if b = 0 then nan else if 0 < b then ninf else inf
  | fin a, ninf => if a = 0 then nan else if 0 < a then ninf else inf
  | fin a, fin b => fin (a * b)

/-- Float division (exact on finite values): `x / 0` is `±∞` for `x ≠ 0` and
NaN for `x = 0`, `finite / ±∞` is `0`, `±∞ / ±∞` is NaN. -/
def FP.div : FP → FP → FP
  | nan, _ => nan
  | _, nan => nan
  | inf, inf => nan
  | inf, ninf => nan
  | ninf, inf => nan
  | ninf, ninf => nan
  | inf, fin b => if 0 ≤ b then inf else ninf
  | ninf, fin b => if 0 ≤ b then ninf else inf
  | fin _, inf => fin 0
  | fin _, ninf => fin 0
  | fin a, fin b => if b = 0 then (if a = 0 then nan else if 0 < a then inf else ninf) else fin (a / b)

/-- Whether a float value is finite (neither infinite nor NaN). -/
def FP.isFinite : FP → Bool
  | fin _ => true
  | _ => false

/-- toPxFromTime over float values (the int subtraction is exact). -/
def toPxFromTimeFP (minX : ℤ) (rx : FP) (i : ℤ) : FP := FP.mul (FP.fin ((i - minX : ℤ) : ℚ)) rx

/-- jlimit over float values (same conditional structure as the JUCE template). -/
def jlimitFP (lower upper v : FP) : FP :=
  if FP.lt v lower then lower else if FP.lt upper v then upper else v

/-- toPxFromAmp over float values. -/
def toPxFromAmpFP (amp ry : FP) (a : FP) : FP :=
  FP.mul (FP.sub amp (jlimitFP (FP.neg amp) amp a)) ry

/-- Non-average accumulator update over float values. -/
def maxUpdateFP (y : ℤ → ℚ) (m : FP) (j : ℤ) : FP :=
  if FP.lt (FP.abs m) (FP.abs (FP.fin (y j))) then FP.fin (y j) else m

/-- Average accumulator update over float values. -/
def avgUpdateFP (y : ℤ → ℚ) (s : FP × ℤ) (j : ℤ) : FP × ℤ := (FP.add s.1 (FP.fin (y j)), s.2 + 1)

/-- The paintWaveform inner loop over float values; note that with a NaN
`curPx` or `nextPx` the comparison is false and the loop exits at once. -/
def innerAggAuxFP {σ : Type} (upd : σ → ℤ → σ) (limit minX : ℤ) (rx nextPx : FP) :
    ℕ → ℤ → FP → σ → ℤ × FP × σ
  | 0, i, curPx, acc => (i, curPx, acc)
  | fuel + 1, i, curPx, acc =>
    if i < limit ∧ FP.lt curPx nextPx then
      innerAggAuxFP upd limit minX rx nextPx fuel (i + 1) (toPxFromTimeFP minX rx (i + 1)) (upd acc (i + 1))
    else (i, curPx, acc)

/-- The float inner loop with its exact iteration budget. -/
def innerAggFP {σ : Type} (upd : σ → ℤ → σ) (limit minX : ℤ) (rx nextPx : FP)
    (i : ℤ) (curPx : FP) (acc : σ) : ℤ × FP × σ :=
  innerAggAuxFP upd limit minX rx nextPx (limit - i).toNat i curPx acc

/-- The paintWaveform outer loop over float values, for any float `rx`
(including zero, infinite or NaN ratios). -/
def outerAggAuxFP (method : AggregationMethod) (y : ℤ → ℚ) (limit minX : ℤ)
    (rx amp ry : FP) : ℕ → ℤ → FP → List (FP × FP)
  | 0, _, _ => []
  | fuel + 1, i, curPx =>
    if i < limit then
      let nextPx := FP.add curPx (FP.fin 1)
      match method with
      | AggregationMethod.Average =>
        let r := innerAggFP (avgUpdateFP y) limit minX rx nextPx i curPx (FP.fin (y i), 1)
        (r.2.1, toPxFromAmpFP amp ry (FP.div r.2.2.1 (FP.fin (r.2.2.2 : ℚ)))) ::
          outerAggAuxFP method y limit minX rx amp ry fuel (r.1 + 1) r.2.1
      | _ =>
        let r := innerAggFP (maxUpdateFP y) limit minX rx nextPx i curPx (FP.fin (y i))
        (r.2.1, toPxFromAmpFP amp ry r.2.2) ::
          outerAggAuxFP method y limit minX rx amp ry fuel (r.1 + 1) r.2.1
    else []

/-- The per-channel polyline over float values. -/
def paintWaveformVerticesFP (method : AggregationMethod) (y : ℤ → ℚ) (minX maxX : ℤ)
    (rx amp ry : FP) : List (FP × FP) :=
  (toPxFromTimeFP minX rx minX, toPxFromAmpFP amp ry (FP.fin (y minX))) ::
    outerAggAuxFP method y (maxX - 1) minX rx amp ry ((maxX - 1) - minX).toNat minX
      (toPxFromTimeFP minX rx minX)

/-- The Oscilloscope widget state relevant to configuration and hand-off:
the fields of Oscilloscope.h lines 98-113.  The float ratio fields are
modelled by `FP`; `blockSize` stands for `oscProcessor->getMaximumBlockSize()`
and `buffer` for the per-channel frame copy. -/
structure OscState where
  width : ℤ
  height : ℤ
  blockSize : ℤ
  amplitudeMax : ℚ
  minXsamples : ℤ
  maxXsamples : ℤ
  ratioX : FP
  ratioY : FP
  ratioXInv : FP
  ratioYInv : FP
  dataFrameReady : Bool
  buffer : List (List ℚ)
deriving DecidableEq

/-- Oscilloscope::calculateRatios (cpp:300-307):
`maxXsamples = jmin (maxXsamples, blockSize); xRatio = width / (maxXsamples - minXsamples);
xRatioInv = 1 / xRatio; yRatio = height / (amplitudeMax * 2); yRatioInv = 1 / yRatio;`
with no guard against zero width, height or sample span. -/
def calculateRatios (s : OscState) : OscState :=
  let maxX := jminI s.maxXsamples s.blockSize
  let rx := FP.div (FP.fin (s.width : ℚ)) (FP.fin ((maxX - s.minXsamples : ℤ) : ℚ))
  let ry := FP.div (FP.fin (s.height : ℚ)) (FP.fin (s.amplitudeMax * 2))
  { s with maxXsamples := maxX, ratioX := rx, ratioXInv := FP.div (FP.fin 1) rx,
           ratioY := ry, ratioYInv := FP.div (FP.fin 1) ry }

/-- Oscilloscope::resized (cpp:52-57): record the new bounds, recompute ratios. -/
def resized (w h : ℤ) (s : OscState) : OscState := calculateRatios { s with width := w, height := h }

/-- Oscilloscope::setMaxAmplitude (cpp:94-98). -/
def setMaxAmplitude (v : ℚ) (s : OscState) : OscState := calculateRatios { s with amplitudeMax := v }

/-- Oscilloscope::setXmin (cpp:103-107). -/
def setXmin (v : ℤ) (s : OscState) : OscState := calculateRatios { s with minXsamples := v }

/-- Oscilloscope::setXmax (cpp:112-116): store the requested maximum, then
recompute ratios (which clamps it against the processor block size). -/
def setXmax (v : ℤ) (s : OscState) : OscState := calculateRatios { s with maxXsamples := v }

/-- Oscilloscope::getXmax (cpp:117-120). -/
def getXmax (s : OscState) : ℤ := s.maxXsamples

/-- Oscilloscope::audioProbeUpdated (cpp:78-87): when the probe is owned, the
handler itself calls repaint() and copies the frame into the buffer under the
lock.  `ownsProbe` models `oscProcessor->ownsProbe (audioProbe)`, the returned
Bool records whether repaint() was invoked, and the frame copy is modelled as
replacing the buffer contents.  Note the handler never touches the
`dataFrameReady` flag declared in Oscilloscope.h line 113. -/
def audioProbeUpdated (ownsProbe : Bool) (frame : List (List ℚ)) (s : OscState) : OscState × Bool :=
  if ownsProbe then ({ s with buffer := frame }, true) else (s, false)

/-- Reference widget state used by the concrete evaluations: an 800x600
viewport, 4096-sample block size, full-scale amplitude 1, default window. -/
def initialOscState : OscState :=
  { width := 800, height := 600, blockSize := 4096, amplitudeMax := 1,
    minXsamples := 0, maxXsamples := 4096,
    ratioX := FP.fin 1, ratioY := FP.fin 1, ratioXInv := FP.fin 1, ratioYInv := FP.fin 1,
    dataFrameReady := false, buffer := [] }

/-- Sample row with a +0.3 first sample and a −0.9 second sample, for the
aggregation counterexamples. -/
def sampleRow1 : ℤ → ℚ := fun j => if j = 0 then 3/10 else if j = 1 then -9/10 else 0

/-- Sample row 0.2, 0.4, 0.6, for the average-aggregation example. -/
def sampleRow2 : ℤ → ℚ :=
  fun j => if j = 0 then 1/5 else if j = 1 then 2/5 else if j = 2 then 3/5 else 0

/-! Control-flow lemmas for the inner aggregation loop. -/

/-- The inner loop's final index and pixel position do not depend on the
accumulator: the three accumulation shapes share the same control flow. -/
theorem innerAggAux_control {σ₁ σ₂ : Type} (upd₁ : σ₁ → ℤ → σ₁) (upd₂ : σ₂ → ℤ → σ₂)
    (limit minX : ℤ) (rx nextPx : ℚ) :
    ∀ (fuel : ℕ) (i : ℤ) (curPx : ℚ) (a₁ : σ₁) (a₂ : σ₂),
      (innerAggAux upd₁ limit minX rx nextPx fuel i curPx a₁).1
        = (innerAggAux upd₂ limit minX rx nextPx fuel i curPx a₂).1 ∧
      (innerAggAux upd₁ limit minX rx nextPx fuel i curPx a₁).2.1
        = (innerAggAux upd₂ limit minX rx nextPx fuel i curPx a₂).2.1 := by
  intro fuel
  induction fuel with
  | zero => intro i curPx a₁ a₂; exact ⟨rfl, rfl⟩
  | succ fuel ih =>
    intro i curPx a₁ a₂
    by_cases h : i < limit ∧ curPx < nextPx
    · simpa [innerAggAux, h] using
        ih (i + 1) (toPxFromTime minX rx (i + 1)) (upd₁ a₁ (i + 1)) (upd₂ a₂ (i + 1))
    · simp [innerAggAux, h]

/-- Prepending indices to the index-recording accumulator factors out. -/
theorem innerAggAux_run_append (limit minX : ℤ) (rx nextPx : ℚ) :
    ∀ (fuel : ℕ) (i : ℤ) (curPx : ℚ) (l : List ℤ),
      (innerAggAux runUpdate limit minX rx nextPx fuel i curPx l).2.2
        = l ++ (innerAggAux runUpdate limit minX rx nextPx fuel i curPx []).2.2 := by
  intro fuel
  induction fuel with
  | zero => intro i curPx l; simp [innerAggAux]
  | succ fuel ih =>
    intro i curPx l
    by_cases h : i < limit ∧ curPx < nextPx
    · simp only [innerAggAux, if_pos h]
      rw [ih (i + 1) (toPxFromTime minX rx (i + 1)) (runUpdate l (i + 1)),
        ih (i + 1) (toPxFromTime minX rx (i + 1)) (runUpdate [] (i + 1))]
      simp [runUpdate]
    · simp [innerAggAux, h]

/-- The accumulator computed by the inner loop is the fold of the update
function over the indices the loop visits. -/
theorem innerAggAux_acc {σ : Type} (upd : σ → ℤ → σ) (limit minX : ℤ) (rx nextPx : ℚ) :
    ∀ (fuel : ℕ) (i : ℤ) (curPx : ℚ) (a : σ),
      (innerAggAux upd limit minX rx nextPx fuel i curPx a).2.2
        = ((innerAggAux runUpdate limit minX rx nextPx fuel i curPx []).2.2).foldl upd a := by
  intro fuel
  induction fuel with
  | zero => intro i curPx a; simp [innerAggAux]
  | succ fuel ih =>
    intro i curPx a
    by_cases h : i < limit ∧ curPx < nextPx
    · simp only [innerAggAux, if_pos h]
      rw [ih (i + 1) (toPxFromTime minX rx (i + 1)) (upd a (i + 1)),
        innerAggAux_run_append limit minX rx nextPx fuel (i + 1)
          (toPxFromTime minX rx (i + 1)) (runUpdate [] (i + 1))]
      simp [runUpdate]
    · simp [innerAggAux, h]

/-- Position invariant of the inner loop: starting on the pixel grid at `j`,
the loop ends at an index between `j` and `limit` and on the pixel grid there. -/
theorem innerAggAux_at_toPx {σ : Type} (upd : σ → ℤ → σ) (limit minX : ℤ) (rx nextPx : ℚ) :
    ∀ (fuel : ℕ) (j : ℤ) (b : σ), j ≤ limit →
      j ≤ (innerAggAux upd limit minX rx nextPx fuel j (toPxFromTime minX rx j) b).1 ∧
      (innerAggAux upd limit minX rx nextPx fuel j (toPxFromTime minX rx j) b).1 ≤ limit ∧
      (innerAggAux upd limit minX rx nextPx fuel j (toPxFromTime minX rx j) b).2.1
        = toPxFromTime minX rx
            ((innerAggAux upd limit minX rx nextPx fuel j (toPxFromTime minX rx j) b).1) := by
  intro fuel
  induction fuel with
  | zero => intro j b hj; exact ⟨le_refl j, hj, rfl⟩
  | succ fuel ih =>
    intro j b hj
    by_cases h : j < limit ∧ toPxFromTime minX rx j < nextPx
    · simp only [innerAggAux, if_pos h]
      obtain ⟨h1, h2, h3⟩ := ih (j + 1) (upd b (j + 1)) (by omega)
      refine ⟨?_, h2, h3⟩
      omega
    · simp only [innerAggAux, if_neg h]
      exact ⟨le_refl j, hj, by trivial⟩

/-- A single entered inner loop advances the index by at least one and stops
between `i + 1` and `limit`, on the pixel grid. -/
theorem innerAgg_step {σ : Type} (upd : σ → ℤ → σ) (limit minX : ℤ) (rx nextPx : ℚ)
    (i : ℤ) (curPx : ℚ) (a : σ) (hil : i < limit) (hpx : curPx < nextPx) :
    i + 1 ≤ (innerAgg upd limit minX rx nextPx i curPx a).1 ∧
    (innerAgg upd limit minX rx nextPx i curPx a).1 ≤ limit ∧
    (innerAgg upd limit minX rx nextPx i curPx a).2.1
      = toPxFromTime minX rx ((innerAgg upd limit minX rx nextPx i curPx a).1) := by
  unfold innerAgg
  obtain ⟨k, hk⟩ : ∃ k, (limit - i).toNat = k + 1 := ⟨(limit - i).toNat - 1, by omega⟩
  rw [hk]
  simp only [innerAggAux, if_pos (And.intro hil hpx)]
  exact innerAggAux_at_toPx upd limit minX rx nextPx k (i + 1) (upd a (i + 1)) (by omega)

/-- With sufficient fuel the inner loop stops only when its guard fails. -/
theorem innerAggAux_exit {σ : Type} (upd : σ → ℤ → σ) (limit minX : ℤ) (rx nextPx : ℚ) :
    ∀ (fuel : ℕ) (i : ℤ) (curPx : ℚ) (a : σ), (limit - i).toNat ≤ fuel →
      ¬ ((innerAggAux upd limit minX rx nextPx fuel i curPx a).1 < limit ∧
         (innerAggAux upd limit minX rx nextPx fuel i curPx a).2.1 < nextPx) := by
  intro fuel
  induction fuel with
  | zero =>
    intro i curPx a hf
    simp only [innerAggAux]
    rintro ⟨h1, _⟩
    omega
  | succ fuel ih =>
    intro i curPx a hf
    by_cases h : i < limit ∧ curPx < nextPx
    · simp only [innerAggAux, if_pos h]
      exact ih (i + 1) (toPxFromTime minX rx (i + 1)) (upd a (i + 1)) (by omega)
    · simp only [innerAggAux, if_neg h]
      exact h

/-- The inner loop, run with its exact budget, stops only when its guard fails. -/
theorem innerAgg_exit {σ : Type} (upd : σ → ℤ → σ) (limit minX : ℤ) (rx nextPx : ℚ)
    (i : ℤ) (curPx : ℚ) (a : σ) :
    ¬ ((innerAgg upd limit minX rx nextPx i curPx a).1 < limit ∧
       (innerAgg upd limit minX rx nextPx i curPx a).2.1 < nextPx) :=
  innerAggAux_exit upd limit minX rx nextPx (limit - i).toNat i curPx a (le_refl _)

/-- toPxFromTime is monotone for a nonnegative ratio. -/
theorem toPxFromTime_mono_le (minX : ℤ) (rx : ℚ) (hrx : 0 ≤ rx) {i j : ℤ} (hij : i ≤ j) :
    toPxFromTime minX rx i ≤ toPxFromTime minX rx j := by
  unfold toPxFromTime
  exact mul_le_mul_of_nonneg_right (Int.cast_le.mpr (by omega)) hrx

/-- toPxFromTime is strictly monotone for a positive ratio. -/
theorem toPxFromTime_mono_lt (minX : ℤ) (rx : ℚ) (hrx : 0 < rx) {i j : ℤ} (hij : i < j) :
    toPxFromTime minX rx i < toPxFromTime minX rx j := by
  unfold toPxFromTime
  exact mul_lt_mul_of_pos_right (Int.cast_lt.mpr (by omega)) hrx

/-- Granting the inner loop any fuel at or above its exact budget does not
change the result: the fuel is semantically inert. -/
theorem innerAggAux_fuel_growth {σ : Type} (upd : σ → ℤ → σ) (limit minX : ℤ) (rx nextPx : ℚ) :
    ∀ (f₁ f₂ : ℕ) (i : ℤ) (curPx : ℚ) (a : σ),
      (limit - i).toNat ≤ f₁ → (limit - i).toNat ≤ f₂ →
      innerAggAux upd limit minX rx nextPx f₁ i curPx a
        = innerAggAux upd limit minX rx nextPx f₂ i curPx a := by
  intro f₁
  induction f₁ with
  | zero =>
    intro f₂ i curPx a h1 h2
    cases f₂ with
    | zero => rfl
    | succ f₂ =>
      have hng : ¬ (i < limit ∧ curPx < nextPx) := by rintro ⟨h, _⟩; omega
      simp [innerAggAux, hng]
  | succ f₁ ih =>
    intro f₂ i curPx a h1 h2
    cases f₂ with
    | zero =>
      have hng : ¬ (i < limit ∧ curPx < nextPx) := by rintro ⟨h, _⟩; omega
      simp [innerAggAux, hng]
    | succ f₂ =>
      by_cases h : i < limit ∧ curPx < nextPx
      · simp only [innerAggAux, if_pos h]
        exact ih f₂ (i + 1) (toPxFromTime minX rx (i + 1)) (upd a (i + 1)) (by omega) (by omega)
      · simp only [innerAggAux, if_neg h]

/-- The outer loop emits nothing once the guard has failed. -/
theorem outerAggAux_nil (method : AggregationMethod) (y : ℤ → ℚ) (limit minX : ℤ)
    (rx amp ry : ℚ) (fuel : ℕ) (i : ℤ) (curPx : ℚ) (h : ¬ i < limit) :
    outerAggAux method y limit minX rx amp ry fuel i curPx = [] := by
  cases fuel with
  | zero => rfl
  | succ fuel => simp [outerAggAux, h]

/-- Granting the outer loop any fuel at or above its exact budget does not
change the emitted vertex list: the fuel is semantically inert. -/
theorem outerAggAux_fuel_growth (method : AggregationMethod) (y : ℤ → ℚ) (limit minX : ℤ)
    (rx amp ry : ℚ) :
    ∀ (f₁ f₂ : ℕ) (i : ℤ) (curPx : ℚ),
      (limit - i).toNat ≤ f₁ → (limit - i).toNat ≤ f₂ →
      outerAggAux method y limit minX rx amp ry f₁ i curPx
        = outerAggAux method y limit minX rx amp ry f₂ i curPx := by
  intro f₁
  induction f₁ with
  | zero =>
    intro f₂ i curPx h1 h2
    have hng : ¬ i < limit := by omega
    rw [outerAggAux_nil method y limit minX rx amp ry 0 i curPx hng,
      outerAggAux_nil method y limit minX rx amp ry f₂ i curPx hng]
  | succ f₁ ih =>
    intro f₂ i curPx h1 h2
    by_cases hil : i < limit
    · cases f₂ with
      | zero => omega
      | succ f₂ =>
        cases method with
        | Average =>
          simp only [outerAggAux, if_pos hil]
          obtain ⟨hs1, hs2, _⟩ := innerAgg_step (avgUpdate y) limit minX rx (curPx + 1) i curPx
            (y i, 1) hil (lt_add_one curPx)
          rw [ih f₂ ((innerAgg (avgUpdate y) limit minX rx (curPx + 1) i curPx (y i, 1)).1 + 1)
            (innerAgg (avgUpdate y) limit minX rx (curPx + 1) i curPx (y i, 1)).2.1
            (by omega) (by omega)]
        | NearestSample =>
          simp only [outerAggAux, if_pos hil]
          obtain ⟨hs1, hs2, _⟩ := innerAgg_step (maxUpdate y) limit minX rx (curPx + 1) i curPx
            (y i) hil (lt_add_one curPx)
          rw [ih f₂ ((innerAgg (maxUpdate y) limit minX rx (curPx + 1) i curPx (y i)).1 + 1)
            (innerAgg (maxUpdate y) limit minX rx (curPx + 1) i curPx (y i)).2.1
            (by omega) (by omega)]
        | Maximum =>
          simp only [outerAggAux, if_pos hil]
          obtain ⟨hs1, hs2, _⟩ := innerAgg_step (maxUpdate y) limit minX rx (curPx + 1) i curPx
            (y i) hil (lt_add_one curPx)
          rw [ih f₂ ((innerAgg (maxUpdate y) limit minX rx (curPx + 1) i curPx (y i)).1 + 1)
            (innerAgg (maxUpdate y) limit minX rx (curPx + 1) i curPx (y i)).2.1
            (by omega) (by omega)]
    · rw [outerAggAux_nil method y limit minX rx amp ry (f₁ + 1) i curPx hil,
        outerAggAux_nil method y limit minX rx amp ry f₂ i curPx hil]

/-- Facts available about one entered inner loop during an outer iteration:
the emitted x strictly exceeds the entry position, stays within the final
sample's pixel position, the index advances, and the loop either consumed the
window or advanced the pixel position by at least one. -/
theorem innerAgg_outer_facts {σ : Type} (upd : σ → ℤ → σ) (limit minX : ℤ) (rx : ℚ)
    (hrx : 0 < rx) (i : ℤ) (curPx : ℚ) (a : σ) (hil : i < limit)
    (hc1 : curPx ≤ toPxFromTime minX rx i) :
    curPx < (innerAgg upd limit minX rx (curPx + 1) i curPx a).2.1 ∧
    (innerAgg upd limit minX rx (curPx + 1) i curPx a).2.1 ≤ toPxFromTime minX rx limit ∧
    (i + 1 ≤ (innerAgg upd limit minX rx (curPx + 1) i curPx a).1 ∧
      (innerAgg upd limit minX rx (curPx + 1) i curPx a).1 ≤ limit) ∧
    (innerAgg upd limit minX rx (curPx + 1) i curPx a).2.1
      ≤ toPxFromTime minX rx ((innerAgg upd limit minX rx (curPx + 1) i curPx a).1 + 1) ∧
    ((innerAgg upd limit minX rx (curPx + 1) i curPx a).1 = limit ∨
      curPx + 1 ≤ (innerAgg upd limit minX rx (curPx + 1) i curPx a).2.1) := by
  obtain ⟨h1, h2, h3⟩ := innerAgg_step upd limit minX rx (curPx + 1) i curPx a hil (lt_add_one curPx)
  have hmono : toPxFromTime minX rx i
      < toPxFromTime minX rx ((innerAgg upd limit minX rx (curPx + 1) i curPx a).1) :=
    toPxFromTime_mono_lt minX rx hrx (by omega)
  refine ⟨?_, ?_, ⟨h1, h2⟩, ?_, ?_⟩
  · rw [h3]; exact lt_of_le_of_lt hc1 hmono
  · rw [h3]; exact toPxFromTime_mono_le minX rx (le_of_lt hrx) h2
  · rw [h3]; exact toPxFromTime_mono_le minX rx (le_of_lt hrx) (by omega)
  · rcases not_and_or.mp (innerAgg_exit upd limit minX rx (curPx + 1) i curPx a) with h | h
    · left; omega
    · right; exact not_lt.mp h

/-- Bound, membership and chain facts lift over one emitted vertex. -/
theorem bound_cons_step (T curPx c' v : ℚ) (L' : List (ℚ × ℚ))
    (hc1 : curPx < c') (hc2 : c' ≤ T)
    (hlen : (L'.length : ℚ) ≤ T - c' + 1)
    (hmem : ∀ p ∈ L', c' < p.1 ∧ p.1 ≤ T)
    (hchain : List.Chain' (fun a b => a < b) (L'.map Prod.fst))
    (hcase : L' = [] ∨ curPx + 1 ≤ c') (hT : curPx ≤ T) :
    ((((c', v) :: L').length : ℚ) ≤ T - curPx + 1) ∧
    (∀ p ∈ (c', v) :: L', curPx < p.1 ∧ p.1 ≤ T) ∧
    List.Chain' (fun a b => a < b) (((c', v) :: L').map Prod.fst) := by
  refine ⟨?_, ?_, ?_⟩
  · rcases hcase with h | h
    · subst h; simp; linarith
    · rw [List.length_cons]
      push_cast
      linarith
  · intro p hp
    rcases List.mem_cons.mp hp with h | h
    · subst h; exact ⟨hc1, hc2⟩
    · exact ⟨lt_trans hc1 (hmem p h).1, (hmem p h).2⟩
  · rw [List.map_cons, List.chain'_cons']
    refine ⟨?_, hchain⟩
    intro b hb
    obtain ⟨p, hp, rfl⟩ := List.mem_map.mp (List.mem_of_mem_head? hb)
    exact (hmem p hp).1

/-- Main invariant of the outer loop (any aggregation method, positive ratio):
from an entry position at or left of both the entry sample's and the final
sample's pixel positions, the emitted vertex list is bounded in length by the
remaining pixel span plus one, all its x positions lie in
`(curPx, toPxFromTime limit]`, and they are strictly increasing. -/
theorem outerAggAux_bound (method : AggregationMethod) (y : ℤ → ℚ) (limit minX : ℤ)
    (rx amp ry : ℚ) (hrx : 0 < rx) :
    ∀ (fuel : ℕ) (i : ℤ) (curPx : ℚ),
      curPx ≤ toPxFromTime minX rx i → curPx ≤ toPxFromTime minX rx limit →
      (((outerAggAux method y limit minX rx amp ry fuel i curPx).length : ℚ)
          ≤ toPxFromTime minX rx limit - curPx + 1) ∧
      (∀ p ∈ outerAggAux method y limit minX rx amp ry fuel i curPx,
          curPx < p.1 ∧ p.1 ≤ toPxFromTime minX rx limit) ∧
      List.Chain' (fun a b => a < b)
        ((outerAggAux method y limit minX rx amp ry fuel i curPx).map Prod.fst) := by
  intro fuel
  induction fuel with
  | zero =>
    intro i curPx h1 h2
    refine ⟨?_, ?_, ?_⟩
    · simp only [outerAggAux, List.length_nil, Nat.cast_zero]; linarith
    · intro p hp; simp only [outerAggAux, List.not_mem_nil] at hp
    · simp only [outerAggAux, List.map_nil, List.chain'_nil]
  | succ fuel ih =>
    intro i curPx h1 h2
    by_cases hil : i < limit
    · cases method with
      | Average =>
        simp only [outerAggAux, if_pos hil]
        obtain ⟨F1, F2, ⟨F3a, F3b⟩, F4, F5⟩ :=
          innerAgg_outer_facts (avgUpdate y) limit minX rx hrx i curPx (y i, 1) hil h1
        obtain ⟨ihlen, ihmem, ihchain⟩ :=
          ih ((innerAgg (avgUpdate y) limit minX rx (curPx + 1) i curPx (y i, 1)).1 + 1)
            (innerAgg (avgUpdate y) limit minX rx (curPx + 1) i curPx (y i, 1)).2.1 F4 F2
        refine bound_cons_step (toPxFromTime minX rx limit) curPx _ _ _ F1 F2 ihlen ihmem ihchain
          ?_ h2
        rcases F5 with h | h
        · exact Or.inl (outerAggAux_nil AggregationMethod.Average y limit minX rx amp ry fuel _ _
            (by omega))
        · exact Or.inr h
      | NearestSample =>
        simp only [outerAggAux, if_pos hil]
        obtain ⟨F1, F2, ⟨F3a, F3b⟩, F4, F5⟩ :=
          innerAgg_outer_facts (maxUpdate y) limit minX rx hrx i curPx (y i) hil h1
        obtain ⟨ihlen, ihmem, ihchain⟩ :=
          ih ((innerAgg (maxUpdate y) limit minX rx (curPx + 1) i curPx (y i)).1 + 1)
            (innerAgg (maxUpdate y) limit minX rx (curPx + 1) i curPx (y i)).2.1 F4 F2
        refine bound_cons_step (toPxFromTime minX rx limit) curPx _ _ _ F1 F2 ihlen ihmem ihchain
          ?_ h2
        rcases F5 with h | h
        · exact Or.inl (outerAggAux_nil AggregationMethod.NearestSample y limit minX rx amp ry fuel _ _
            (by omega))
        · exact Or.inr h
      | Maximum =>
        simp only [outerAggAux, if_pos hil]
        obtain ⟨F1, F2, ⟨F3a, F3b⟩, F4, F5⟩ :=
          innerAgg_outer_facts (maxUpdate y) limit minX rx hrx i curPx (y i) hil h1
        obtain ⟨ihlen, ihmem, ihchain⟩ :=
          ih ((innerAgg (maxUpdate y) limit minX rx (curPx + 1) i curPx (y i)).1 + 1)
            (innerAgg (maxUpdate y) limit minX rx (curPx + 1) i curPx (y i)).2.1 F4 F2
        refine bound_cons_step (toPxFromTime minX rx limit) curPx _ _ _ F1 F2 ihlen ihmem ihchain
          ?_ h2
        rcases F5 with h | h
        · exact Or.inl (outerAggAux_nil AggregationMethod.Maximum y limit minX rx amp ry fuel _ _
            (by omega))
        · exact Or.inr h
    · rw [outerAggAux_nil method y limit minX rx amp ry (fuel + 1) i curPx hil]
      refine ⟨?_, ?_, ?_⟩
      · simp only [List.length_nil, Nat.cast_zero]; linarith
      · intro p hp; simp only [List.not_mem_nil] at hp
      · simp only [List.map_nil, List.chain'_nil]

/-- C4 (amended): for every aggregation method, frame contents, sample window
with minSample < maxSample and positive viewport width W, with the exact ratio
`xRatio = W / (maxSample - minSample)` as computed by calculateRatios, the
polyline built by paintWaveform contains at most W + 1 vertices and its
pixel-x positions are strictly increasing. -/
theorem paintWaveform_vertex_bound (method : AggregationMethod) (y : ℤ → ℚ)
    (minX maxX W : ℤ) (amp ry : ℚ) (hW : 1 ≤ W) (hspan : minX < maxX) :
    (((paintWaveformVertices method y minX maxX ((W : ℚ) / ((maxX - minX : ℤ) : ℚ)) amp ry).length : ℤ)
        ≤ W + 1) ∧
    List.Chain' (fun a b => a < b)
      ((paintWaveformVertices method y minX maxX ((W : ℚ) / ((maxX - minX : ℤ) : ℚ)) amp ry).map
        Prod.fst) := by
  have hspanQ : (0 : ℚ) < ((maxX - minX : ℤ) : ℚ) := by
    exact_mod_cast (by omega : (0 : ℤ) < maxX - minX)
  have hWQ : (0 : ℚ) < (W : ℚ) := by exact_mod_cast (by omega : (0 : ℤ) < W)
  set rx : ℚ := (W : ℚ) / ((maxX - minX : ℤ) : ℚ) with hrxdef
  have hrx : 0 < rx := div_pos hWQ hspanQ
  have hstart2 : toPxFromTime minX rx minX ≤ toPxFromTime minX rx (maxX - 1) :=
    toPxFromTime_mono_le minX rx (le_of_lt hrx) (by omega)
  obtain ⟨blen, bmem, bchain⟩ := outerAggAux_bound method y (maxX - 1) minX rx amp ry hrx
    ((maxX - 1) - minX).toNat minX (toPxFromTime minX rx minX) (le_refl _) hstart2
  constructor
  · have hpx0 : toPxFromTime minX rx minX = 0 := by simp [toPxFromTime]
    have hcast : ((maxX - 1 - minX : ℤ) : ℚ) = ((maxX - minX : ℤ) : ℚ) - 1 := by
      push_cast; ring
    have hub : ((maxX - 1 - minX : ℤ) : ℚ) * rx + 1 < (W : ℚ) + 1 := by
      rw [hcast, hrxdef, sub_mul]
      have hcancel : ((maxX - minX : ℤ) : ℚ) * ((W : ℚ) / ((maxX - minX : ℤ) : ℚ)) = (W : ℚ) := by
        rw [← mul_div_assoc]
        exact mul_div_cancel_left₀ (W : ℚ) hspanQ.ne'
      rw [hcancel]
      have hpos : 0 < 1 * ((W : ℚ) / ((maxX - minX : ℤ) : ℚ)) := by positivity
      linarith
    have hlim : toPxFromTime minX rx (maxX - 1) = ((maxX - 1 - minX : ℤ) : ℚ) * rx := rfl
    have hkey : (((outerAggAux method y (maxX - 1) minX rx amp ry ((maxX - 1) - minX).toNat minX
        (toPxFromTime minX rx minX)).length : ℚ)) < (W : ℚ) + 1 := by
      calc (((outerAggAux method y (maxX - 1) minX rx amp ry ((maxX - 1) - minX).toNat minX
            (toPxFromTime minX rx minX)).length : ℚ))
          ≤ toPxFromTime minX rx (maxX - 1) - toPxFromTime minX rx minX + 1 := blen
        _ = ((maxX - 1 - minX : ℤ) : ℚ) * rx + 1 := by rw [hlim, hpx0]; ring
        _ < (W : ℚ) + 1 := hub
    have hkeyZ : (((outerAggAux method y (maxX - 1) minX rx amp ry ((maxX - 1) - minX).toNat minX
        (toPxFromTime minX rx minX)).length : ℤ)) < W + 1 := by exact_mod_cast hkey
    rw [paintWaveformVertices, List.length_cons]
    push_cast
    push_cast at hkeyZ
    omega
  · rw [paintWaveformVertices, List.map_cons, List.chain'_cons']
    refine ⟨?_, bchain⟩
    intro b hb
    obtain ⟨p, hp, rfl⟩ := List.mem_map.mp (List.mem_of_mem_head? hb)
    exact (bmem p hp).1

/-- C4 witness: a 2-pixel viewport and the window [0, 5) yield at most 3
vertices in strictly increasing x order. -/
theorem paintWaveform_vertex_bound_witness :
    (1 : ℤ) ≤ 2 ∧ (0 : ℤ) < 5 ∧
    ((((paintWaveformVertices AggregationMethod.Maximum (fun _ => 0) 0 5
        (((2 : ℤ) : ℚ) / ((5 - 0 : ℤ) : ℚ)) 1 1).length : ℤ) ≤ 2 + 1) ∧
      List.Chain' (fun a b => a < b)
        ((paintWaveformVertices AggregationMethod.Maximum (fun _ => 0) 0 5
          (((2 : ℤ) : ℚ) / ((5 - 0 : ℤ) : ℚ)) 1 1).map Prod.fst)) :=
  ⟨by norm_num, by norm_num,
    paintWaveform_vertex_bound AggregationMethod.Maximum (fun _ => 0) 0 5 2 1 1
      (by norm_num) (by norm_num)⟩

/-- C4 counterexample: with viewport width 0 (so `xRatio = 0 / 3`) and window
[0, 3), the polyline has 2 vertices, exceeding W + 1 = 1, and both lie at the
same pixel-x position, so the claim fails for width 0. -/
theorem paintWaveform_vertex_bound_cex :
    (paintWaveformVertices AggregationMethod.Maximum (fun _ => 0) 0 3
        (((0 : ℤ) : ℚ) / ((3 - 0 : ℤ) : ℚ)) 1 1).length = 2 ∧
    ¬ ((((paintWaveformVertices AggregationMethod.Maximum (fun _ => 0) 0 3
          (((0 : ℤ) : ℚ) / ((3 - 0 : ℤ) : ℚ)) 1 1).length : ℤ) ≤ 0 + 1) ∧
        List.Chain' (fun a b => a < b)
          ((paintWaveformVertices AggregationMethod.Maximum (fun _ => 0) 0 3
            (((0 : ℤ) : ℚ) / ((3 - 0 : ℤ) : ℚ)) 1 1).map Prod.fst)) := by
  have hv : paintWaveformVertices AggregationMethod.Maximum (fun _ => 0) 0 3
      (((0 : ℤ) : ℚ) / ((3 - 0 : ℤ) : ℚ)) 1 1 = [(0, 1), (0, 1)] := by
    norm_num [paintWaveformVertices, outerAggAux, innerAgg, innerAggAux, toPxFromTime,
      toPxFromAmp, jlimit, maxUpdate, abs_eq_max_neg, max_def]
  rw [hv]
  norm_num

/-- The fold of maxUpdate over candidate indices returns either its seed or
one of the candidates' values, of largest absolute value among all of them:
exactly the accumulation discipline of the non-average branch. -/
theorem foldl_maxUpdate_spec (y : ℤ → ℚ) :
    ∀ (t : List ℤ) (m : ℚ),
      (t.foldl (maxUpdate y) m = m ∨ t.foldl (maxUpdate y) m ∈ t.map y) ∧
      |m| ≤ |t.foldl (maxUpdate y) m| ∧
      ∀ j ∈ t, |y j| ≤ |t.foldl (maxUpdate y) m| := by
  intro t
  induction t with
  | nil =>
    intro m
    refine ⟨Or.inl rfl, le_refl _, ?_⟩
    intro j hj
    cases hj
  | cons j t ih =>
    intro m
    simp only [List.foldl_cons, List.map_cons]
    obtain ⟨ihmem, ihle, ihall⟩ := ih (maxUpdate y m j)
    have hup : |m| ≤ |maxUpdate y m j| ∧ |y j| ≤ |maxUpdate y m j| := by
      unfold maxUpdate
      by_cases h : |m| < |y j|
      · rw [if_pos h]; exact ⟨le_of_lt h, le_refl _⟩
      · rw [if_neg h]; exact ⟨le_refl _, not_lt.mp h⟩
    refine ⟨?_, le_trans hup.1 ihle, ?_⟩
    · rcases ihmem with h | h
      · rw [h]
        unfold maxUpdate
        by_cases hc : |m| < |y j|
        · rw [if_pos hc]; exact Or.inr (List.mem_cons_self _ _)
        · rw [if_neg hc]; exact Or.inl rfl
      · exact Or.inr (List.mem_cons_of_mem _ h)
    · intro j' hj'
      rcases List.mem_cons.mp hj' with h | h
      · subst h; exact le_trans hup.2 ihle
      · exact ihall j' h

/-- The fold of avgUpdate accumulates the running sum and count over the
visited indices: exactly the accumulation discipline of the average branch. -/
theorem foldl_avgUpdate_spec (y : ℤ → ℚ) :
    ∀ (t : List ℤ) (s : ℚ) (c : ℤ),
      t.foldl (avgUpdate y) (s, c) = (s + (t.map y).sum, c + t.length) := by
  intro t
  induction t with
  | nil => intro s c; simp
  | cons j t ih =>
    intro s c
    simp only [List.foldl_cons, avgUpdate, List.map_cons, List.sum_cons, List.length_cons]
    rw [ih (s + y j) (c + 1)]
    refine Prod.ext ?_ ?_
    · simp; ring
    · simp; push_cast; ring

/-- Every vertex emitted by the Maximum branch carries a sample value of its
pixel-column run of largest absolute magnitude, sign preserved. -/
theorem outerAgg_maximum_runs (y : ℤ → ℚ) (limit minX : ℤ) (rx amp ry : ℚ) :
    ∀ (fuel : ℕ) (i : ℤ) (curPx : ℚ),
      List.Forall₂ (fun (vert : ℚ × ℚ) (run : List ℤ) =>
          ∃ v, vert.2 = toPxFromAmp amp ry v ∧ v ∈ run.map y ∧ ∀ x ∈ run.map y, |x| ≤ |v|)
        (outerAggAux AggregationMethod.Maximum y limit minX rx amp ry fuel i curPx)
        (runsAux limit minX rx fuel i curPx) := by
  intro fuel
  induction fuel with
  | zero => intro i curPx; exact List.Forall₂.nil
  | succ fuel ih =>
    intro i curPx
    by_cases hil : i < limit
    · simp only [outerAggAux, runsAux, innerAgg, if_pos hil]
      have hctl := innerAggAux_control (maxUpdate y) runUpdate limit minX rx (curPx + 1)
        ((limit - i).toNat) i curPx (y i) [i]
      have hacc := innerAggAux_acc (maxUpdate y) limit minX rx (curPx + 1)
        ((limit - i).toNat) i curPx (y i)
      have hrun := innerAggAux_run_append limit minX rx (curPx + 1)
        ((limit - i).toNat) i curPx [i]
      refine List.Forall₂.cons ?_ ?_
      · refine ⟨(innerAggAux (maxUpdate y) limit minX rx (curPx + 1) ((limit - i).toNat) i curPx
          (y i)).2.2, rfl, ?_, ?_⟩
        · rw [hacc, hrun]
          obtain ⟨hmem, _, _⟩ := foldl_maxUpdate_spec y
            ((innerAggAux runUpdate limit minX rx (curPx + 1) ((limit - i).toNat) i curPx []).2.2)
            (y i)
          rcases hmem with h | h
          · rw [h]; simp
          · simp only [List.map_append, List.map_cons, List.map_nil]
            exact List.mem_append.mpr (Or.inr h)
        · intro x hx
          rw [hacc]
          obtain ⟨_, hseed, hall⟩ := foldl_maxUpdate_spec y
            ((innerAggAux runUpdate limit minX rx (curPx + 1) ((limit - i).toNat) i curPx []).2.2)
            (y i)
          rw [hrun] at hx
          simp only [List.map_append, List.map_cons, List.map_nil, List.mem_append,
            List.mem_cons, List.not_mem_nil, or_false] at hx
          rcases hx with h | h
          · rw [h]; exact hseed
          · obtain ⟨j, hj, rfl⟩ := List.mem_map.mp h
            exact hall j hj
      · rw [hctl.1, hctl.2]
        exact ih _ _
    · simp only [outerAggAux, runsAux, if_neg hil]
      exact List.Forall₂.nil

/-- Every vertex emitted by the Average branch carries the arithmetic mean of
exactly the samples of its pixel-column run. -/
theorem outerAgg_average_runs (y : ℤ → ℚ) (limit minX : ℤ) (rx amp ry : ℚ) :
    ∀ (fuel : ℕ) (i : ℤ) (curPx : ℚ),
      List.Forall₂ (fun (vert : ℚ × ℚ) (run : List ℤ) =>
          vert.2 = toPxFromAmp amp ry ((run.map y).sum / (run.length : ℚ)))
        (outerAggAux AggregationMethod.Average y limit minX rx amp ry fuel i curPx)
        (runsAux limit minX rx fuel i curPx) := by
  intro fuel
  induction fuel with
  | zero => intro i curPx; exact List.Forall₂.nil
  | succ fuel ih =>
    intro i curPx
    by_cases hil : i < limit
    · simp only [outerAggAux, runsAux, innerAgg, if_pos hil]
      have hctl := innerAggAux_control (avgUpdate y) runUpdate limit minX rx (curPx + 1)
        ((limit - i).toNat) i curPx (y i, 1) [i]
      have hacc := innerAggAux_acc (avgUpdate y) limit minX rx (curPx + 1)
        ((limit - i).toNat) i curPx (y i, 1)
      have hrun := innerAggAux_run_append limit minX rx (curPx + 1)
        ((limit - i).toNat) i curPx [i]
      refine List.Forall₂.cons ?_ ?_
      · rw [hacc, hrun,
          foldl_avgUpdate_spec y
            ((innerAggAux runUpdate limit minX rx (curPx + 1) ((limit - i).toNat) i curPx []).2.2)
            (y i) 1]
        simp only [List.map_append, List.map_cons, List.map_nil, List.sum_append,
          List.sum_cons, List.sum_nil, List.length_append, List.length_cons, List.length_nil,
          List.length_map]
        push_cast
        ring_nf
      · rw [hctl.1, hctl.2]
        exact ih _ _
    · simp only [outerAggAux, runsAux, if_neg hil]
      exact List.Forall₂.nil

/-- The NearestSample and Maximum enum values drive the same branch of the
paintWaveform outer loop, so they emit identical vertices. -/
theorem outerAgg_nearest_eq_maximum (y : ℤ → ℚ) (limit minX : ℤ) (rx amp ry : ℚ) :
    ∀ (fuel : ℕ) (i : ℤ) (curPx : ℚ),
      outerAggAux AggregationMethod.NearestSample y limit minX rx amp ry fuel i curPx
        = outerAggAux AggregationMethod.Maximum y limit minX rx amp ry fuel i curPx := by
  intro fuel
  induction fuel with
  | zero => intro i curPx; rfl
  | succ fuel ih =>
    intro i curPx
    by_cases hil : i < limit
    · simp only [outerAggAux, if_pos hil]
      rw [ih]
    · simp only [outerAggAux, if_neg hil]

/-- C7: when the aggregation method is Maximum, every emitted vertex carries a
run element of largest absolute magnitude with its sign preserved; in
particular over sampleRow1 (a run holding +0.3 and −0.9 at one-pixel width)
the emitted vertex is `toPxFromAmp (−9/10) = 19/10`, i.e. −0.9 was chosen. -/
theorem maximum_vertex_carries_peak :
    (∀ (y : ℤ → ℚ) (minX maxX : ℤ) (rx amp ry : ℚ),
      List.Forall₂ (fun (vert : ℚ × ℚ) (run : List ℤ) =>
          ∃ v, vert.2 = toPxFromAmp amp ry v ∧ v ∈ run.map y ∧ ∀ x ∈ run.map y, |x| ≤ |v|)
        (outerAggAux AggregationMethod.Maximum y (maxX - 1) minX rx amp ry
          ((maxX - 1) - minX).toNat minX (toPxFromTime minX rx minX))
        (runsAux (maxX - 1) minX rx ((maxX - 1) - minX).toNat minX (toPxFromTime minX rx minX))) ∧
    paintWaveformVertices AggregationMethod.Maximum sampleRow1 0 3 (1/3) 1 1
      = [(0, 7/10), (2/3, 19/10)] ∧
    toPxFromAmp 1 1 (-9/10) = 19/10 := by
  refine ⟨?_, ?_, ?_⟩
  · intro y minX maxX rx amp ry
    exact outerAgg_maximum_runs y (maxX - 1) minX rx amp ry _ minX (toPxFromTime minX rx minX)
  · norm_num [paintWaveformVertices, outerAggAux, innerAgg, innerAggAux, toPxFromTime,
      toPxFromAmp, jlimit, maxUpdate, sampleRow1, abs_eq_max_neg, max_def]
  · norm_num [toPxFromAmp, jlimit]

/-- C2 (amended): the NearestSample method takes the same (non-average) branch
as Maximum in Oscilloscope::paintWaveform, so its emitted vertices are those of
Maximum: each carries a run element of largest absolute magnitude, not the
first sample of the run. -/
theorem nearestSample_behaves_like_maximum (y : ℤ → ℚ) (minX maxX : ℤ) (rx amp ry : ℚ) :
    paintWaveformVertices AggregationMethod.NearestSample y minX maxX rx amp ry
      = paintWaveformVertices AggregationMethod.Maximum y minX maxX rx amp ry ∧
    List.Forall₂ (fun (vert : ℚ × ℚ) (run : List ℤ) =>
        ∃ v, vert.2 = toPxFromAmp amp ry v ∧ v ∈ run.map y ∧ ∀ x ∈ run.map y, |x| ≤ |v|)
      (outerAggAux AggregationMethod.NearestSample y (maxX - 1) minX rx amp ry
        ((maxX - 1) - minX).toNat minX (toPxFromTime minX rx minX))
      (runsAux (maxX - 1) minX rx ((maxX - 1) - minX).toNat minX (toPxFromTime minX rx minX)) := by
  constructor
  · unfold paintWaveformVertices
    rw [outerAgg_nearest_eq_maximum y (maxX - 1) minX rx amp ry ((maxX - 1) - minX).toNat minX
      (toPxFromTime minX rx minX)]
  · rw [outerAgg_nearest_eq_maximum y (maxX - 1) minX rx amp ry ((maxX - 1) - minX).toNat minX
      (toPxFromTime minX rx minX)]
    exact outerAgg_maximum_runs y (maxX - 1) minX rx amp ry _ minX (toPxFromTime minX rx minX)

/-- C2 counterexample: with NearestSample, the run [0, 1, 2] of sampleRow1
(first sample +0.3, containing −0.9) emits the vertex `toPxFromAmp (−9/10) =
19/10`, not the first sample's `toPxFromAmp (3/10) = 7/10`: the emitted vertex
does not carry the value of the first sample of its run. -/
theorem nearestSample_first_sample_cex :
    paintWaveformVertices AggregationMethod.NearestSample sampleRow1 0 3 (1/3) 1 1
      = [(0, 7/10), (2/3, 19/10)] ∧
    toPxFromAmp 1 1 (sampleRow1 0) = 7/10 ∧
    toPxFromAmp 1 1 (-9/10) = 19/10 ∧
    ((19 : ℚ)/10) ≠ 7/10 := by
  refine ⟨?_, ?_, ?_, by norm_num⟩
  · norm_num [paintWaveformVertices, outerAggAux, innerAgg, innerAggAux, toPxFromTime,
      toPxFromAmp, jlimit, maxUpdate, sampleRow1, abs_eq_max_neg, max_def]
  · norm_num [toPxFromAmp, jlimit, sampleRow1]
  · norm_num [toPxFromAmp, jlimit]

/-- C8: when the aggregation method is Average, every emitted vertex carries
the arithmetic mean of exactly the samples of its pixel-column run; in
particular the run [0.2, 0.4, 0.6] of sampleRow2 emits
`toPxFromAmp (2/5) = 3/5`, i.e. the mean 0.4. -/
theorem average_vertex_carries_mean :
    (∀ (y : ℤ → ℚ) (minX maxX : ℤ) (rx amp ry : ℚ),
      List.Forall₂ (fun (vert : ℚ × ℚ) (run : List ℤ) =>
          vert.2 = toPxFromAmp amp ry ((run.map y).sum / (run.length : ℚ)))
        (outerAggAux AggregationMethod.Average y (maxX - 1) minX rx amp ry
          ((maxX - 1) - minX).toNat minX (toPxFromTime minX rx minX))
        (runsAux (maxX - 1) minX rx ((maxX - 1) - minX).toNat minX (toPxFromTime minX rx minX))) ∧
    paintWaveformVertices AggregationMethod.Average sampleRow2 0 3 (1/3) 1 1
      = [(0, 4/5), (2/3, 3/5)] ∧
    toPxFromAmp 1 1 (2/5) = 3/5 := by
  refine ⟨?_, ?_, ?_⟩
  · intro y minX maxX rx amp ry
    exact outerAgg_average_runs y (maxX - 1) minX rx amp ry _ minX (toPxFromTime minX rx minX)
  · norm_num [paintWaveformVertices, outerAggAux, innerAgg, innerAggAux, toPxFromTime,
      toPxFromAmp, jlimit, avgUpdate, sampleRow2]
  · norm_num [toPxFromAmp, jlimit]

/-- C5: for every valid configuration (positive viewport width,
minSample < maxSample) with the exact ratios computed by calculateRatios,
composing toPxFromTime with toTimeFromPx recovers every sample index in
[minSample, maxSample) to within plus or minus one sample (in fact exactly). -/
theorem time_px_roundtrip (W minX maxX i : ℤ) (hW : 0 < W) (hspan : minX < maxX)
    (hi1 : minX ≤ i) (hi2 : i < maxX) :
    (toTimeFromPx minX (1 / ((W : ℚ) / ((maxX - minX : ℤ) : ℚ)))
        (toPxFromTime minX ((W : ℚ) / ((maxX - minX : ℤ) : ℚ)) i) - i).natAbs ≤ 1 := by
  have hspanQ : (0 : ℚ) < ((maxX - minX : ℤ) : ℚ) := by
    exact_mod_cast (by omega : (0 : ℤ) < maxX - minX)
  have hWQ : (0 : ℚ) < (W : ℚ) := by exact_mod_cast hW
  have hrx : (0 : ℚ) < (W : ℚ) / ((maxX - minX : ℤ) : ℚ) := div_pos hWQ hspanQ
  have hexact : toTimeFromPx minX (1 / ((W : ℚ) / ((maxX - minX : ℤ) : ℚ)))
      (toPxFromTime minX ((W : ℚ) / ((maxX - minX : ℤ) : ℚ)) i) = i := by
    unfold toTimeFromPx toPxFromTime truncToInt
    have hmul : ((i - minX : ℤ) : ℚ) * ((W : ℚ) / ((maxX - minX : ℤ) : ℚ))
        * (1 / ((W : ℚ) / ((maxX - minX : ℤ) : ℚ))) = ((i - minX : ℤ) : ℚ) := by
      rw [mul_assoc, mul_one_div, div_self (ne_of_gt hrx), mul_one]
    rw [hmul, if_pos (by exact_mod_cast (by omega : (0 : ℤ) ≤ i - minX)), Int.floor_intCast]
    omega
  rw [hexact]
  simp

/-- C5 witness: at width 800, window [0, 4096), index 5 round-trips within one
sample. -/
theorem time_px_roundtrip_witness :
    (0 : ℤ) < 800 ∧ (0 : ℤ) < 4096 ∧ (0 : ℤ) ≤ 5 ∧ (5 : ℤ) < 4096 ∧
    (toTimeFromPx 0 (1 / (((800 : ℤ) : ℚ) / ((4096 - 0 : ℤ) : ℚ)))
        (toPxFromTime 0 (((800 : ℤ) : ℚ) / ((4096 - 0 : ℤ) : ℚ)) 5) - 5).natAbs ≤ 1 :=
  ⟨by norm_num, by norm_num, by norm_num, by norm_num,
    time_px_roundtrip 800 0 4096 5 (by norm_num) (by norm_num) (by norm_num) (by norm_num)⟩

/-- C6: with the exact ratios computed by calculateRatios, the amplitude
roundtrip toAmpFromPx of toPxFromAmp is the identity on [−scale, scale];
out-of-range amplitudes are clamped to ±scale before mapping, and every mapped
pixel-y lies on-canvas in [0, height]. -/
theorem amp_px_roundtrip_and_clamp (amp : ℚ) (H : ℤ) (a : ℚ) (hamp : 0 < amp) (hH : 0 < H) :
    ((-amp ≤ a ∧ a ≤ amp) →
      toAmpFromPx amp (1 / ((H : ℚ) / (amp * 2))) (toPxFromAmp amp ((H : ℚ) / (amp * 2)) a) = a) ∧
    0 ≤ toPxFromAmp amp ((H : ℚ) / (amp * 2)) a ∧
    toPxFromAmp amp ((H : ℚ) / (amp * 2)) a ≤ (H : ℚ) ∧
    (amp < a →
      toPxFromAmp amp ((H : ℚ) / (amp * 2)) a = toPxFromAmp amp ((H : ℚ) / (amp * 2)) amp) ∧
    (a < -amp →
      toPxFromAmp amp ((H : ℚ) / (amp * 2)) a = toPxFromAmp amp ((H : ℚ) / (amp * 2)) (-amp)) := by
  have hHQ : (0 : ℚ) < (H : ℚ) := by exact_mod_cast hH
  have hry : (0 : ℚ) < (H : ℚ) / (amp * 2) := div_pos hHQ (by linarith)
  have hclamp_mem : -amp ≤ jlimit (-amp) amp a ∧ jlimit (-amp) amp a ≤ amp := by
    unfold jlimit
    by_cases h1 : a < -amp
    · rw [if_pos h1]; constructor <;> linarith
    · rw [if_neg h1]
      by_cases h2 : amp < a
      · rw [if_pos h2]; constructor <;> linarith
      · rw [if_neg h2]; exact ⟨by linarith [not_lt.mp h1], not_lt.mp h2⟩
  refine ⟨?_, ?_, ?_, ?_, ?_⟩
  · rintro ⟨h1, h2⟩
    unfold toAmpFromPx toPxFromAmp
    have hj : jlimit (-amp) amp a = a := by
      unfold jlimit
      rw [if_neg (by linarith), if_neg (by linarith)]
    rw [hj, mul_assoc, mul_one_div, div_self (ne_of_gt hry), mul_one]
    ring
  · unfold toPxFromAmp
    exact mul_nonneg (by linarith [hclamp_mem.2]) (le_of_lt hry)
  · unfold toPxFromAmp
    have h2 : amp - jlimit (-amp) amp a ≤ amp * 2 := by linarith [hclamp_mem.1]
    calc (amp - jlimit (-amp) amp a) * ((H : ℚ) / (amp * 2))
        ≤ (amp * 2) * ((H : ℚ) / (amp * 2)) := mul_le_mul_of_nonneg_right h2 (le_of_lt hry)
      _ = (H : ℚ) := by
          rw [← mul_div_assoc]
          exact mul_div_cancel_left₀ _ (by positivity)
  · intro h
    have hja : jlimit (-amp) amp a = amp := by
      unfold jlimit; rw [if_neg (by linarith), if_pos h]
    have hjamp : jlimit (-amp) amp amp = amp := by
      unfold jlimit; rw [if_neg (by linarith), if_neg (by linarith)]
    unfold toPxFromAmp
    rw [hja, hjamp]
  · intro h
    have hja : jlimit (-amp) amp a = -amp := by
      unfold jlimit; rw [if_pos h]
    have hjamp : jlimit (-amp) amp (-amp) = -amp := by
      unfold jlimit; rw [if_neg (by linarith), if_neg (by linarith)]
    unfold toPxFromAmp
    rw [hja, hjamp]

/-- C6 witness: at unit scale and height 2, amplitude 1/2 round-trips exactly. -/
theorem amp_px_roundtrip_witness :
    (0 : ℚ) < 1 ∧ (0 : ℤ) < 2 ∧
    toAmpFromPx 1 (1 / (((2 : ℤ) : ℚ) / (1 * 2))) (toPxFromAmp 1 (((2 : ℤ) : ℚ) / (1 * 2)) (1/2))
      = 1/2 :=
  ⟨by norm_num, by norm_num,
    (amp_px_roundtrip_and_clamp 1 2 (1/2) (by norm_num) (by norm_num)).1
      ⟨by norm_num, by norm_num⟩⟩

/-- C9: after the processor is assigned, setting the sample-window maximum to
any value above the processor block size silently clamps the stored maximum
(observable through getXmax) to the block size, while the rest of the
configuration is retained. -/
theorem setXmax_clamps_to_block_size (s : OscState) (v : ℤ) (hv : s.blockSize < v) :
    getXmax (setXmax v s) = s.blockSize ∧
    (setXmax v s).minXsamples = s.minXsamples ∧
    (setXmax v s).amplitudeMax = s.amplitudeMax ∧
    (setXmax v s).width = s.width ∧
    (setXmax v s).height = s.height ∧
    (setXmax v s).blockSize = s.blockSize := by
  refine ⟨?_, ?_, ?_, ?_, ?_, ?_⟩ <;> simp [setXmax, getXmax, calculateRatios, jminI, hv]

/-- C9 witness: requesting a maximum of 5000 against the 4096-sample block
size of the reference state stores 4096. -/
theorem setXmax_clamps_witness :
    (4096 : ℤ) < 5000 ∧ getXmax (setXmax 5000 initialOscState) = 4096 :=
  ⟨by norm_num,
    by simpa [initialOscState] using
      (setXmax_clamps_to_block_size initialOscState 5000 (by norm_num [initialOscState])).1⟩

/-- C1 (evaluation of the code at the failing inputs): calculateRatios has no
guard against zero viewport dimensions or a zero sample-window span.  Resizing
the reference state to width 0 stores xRatio = 0 and xRatioInv = +infinity;
resizing to height 0 stores yRatio = 0 and yRatioInv = +infinity; shrinking
the window to a zero span stores xRatio = +infinity.  A subsequent valid
resize does recover correct finite ratios, because the ratios are recomputed
from the inputs alone. -/
theorem calculateRatios_zero_guard_missing :
    (resized 0 600 initialOscState).ratioX = FP.fin 0 ∧
    (resized 0 600 initialOscState).ratioXInv = FP.inf ∧
    (resized 800 0 initialOscState).ratioY = FP.fin 0 ∧
    (resized 800 0 initialOscState).ratioYInv = FP.inf ∧
    (setXmin 4096 initialOscState).ratioX = FP.inf ∧
    (resized 800 600 (resized 0 600 initialOscState)).ratioX = FP.fin (25/128) ∧
    (resized 800 600 (resized 0 600 initialOscState)).ratioXInv = FP.fin (128/25) := by
  refine ⟨?_, ?_, ?_, ?_, ?_, ?_, ?_⟩ <;>
    norm_num [resized, setXmin, calculateRatios, initialOscState, jminI, FP.div]

/-- C3 (evaluation of the code on a frame arrival): the frame-arrival handler
audioProbeUpdated itself requests a repaint (the returned Bool records the
repaint() call) and copies the frame into the buffer, and it leaves the
dataFrameReady flag untouched: frame delivery is not decoupled from rendering
through the atomic freshness flag. -/
theorem audioProbeUpdated_repaints_directly :
    (audioProbeUpdated true [[1/2, -1/4]] initialOscState).2 = true ∧
    (audioProbeUpdated true [[1/2, -1/4]] initialOscState).1.dataFrameReady = false ∧
    (audioProbeUpdated true [[1/2, -1/4]] initialOscState).1.buffer = [[1/2, -1/4]] := by
  refine ⟨?_, ?_, ?_⟩ <;> simp [audioProbeUpdated, initialOscState]

/-- The float inner loop never decreases the sample index. -/
theorem innerAggAuxFP_le {σ : Type} (upd : σ → ℤ → σ) (limit minX : ℤ) (rx nextPx : FP) :
    ∀ (fuel : ℕ) (i : ℤ) (curPx : FP) (a : σ),
      i ≤ (innerAggAuxFP upd limit minX rx nextPx fuel i curPx a).1 := by
  intro fuel
  induction fuel with
  | zero => intro i curPx a; exact le_refl i
  | succ fuel ih =>
    intro i curPx a
    by_cases h : i < limit ∧ FP.lt curPx nextPx
    · simp only [innerAggAuxFP, if_pos h]
      exact le_trans (by omega) (ih (i + 1) (toPxFromTimeFP minX rx (i + 1)) (upd a (i + 1)))
    · simp [innerAggAuxFP, if_neg h]

/-- The float outer loop performs at most (limit - i) iterations, for any
float ratios, including zero, infinite and NaN. -/
theorem outerAggAuxFP_length (method : AggregationMethod) (y : ℤ → ℚ) (limit minX : ℤ)
    (rx amp ry : FP) :
    ∀ (fuel : ℕ) (i : ℤ) (curPx : FP),
      (outerAggAuxFP method y limit minX rx amp ry fuel i curPx).length ≤ (limit - i).toNat := by
  intro fuel
  induction fuel with
  | zero => intro i curPx; simp [outerAggAuxFP]
  | succ fuel ih =>
    intro i curPx
    by_cases hil : i < limit
    · cases method with
      | Average =>
        simp only [outerAggAuxFP, innerAggFP, if_pos hil, List.length_cons]
        have hge := innerAggAuxFP_le (avgUpdateFP y) limit minX rx (FP.add curPx (FP.fin 1))
          ((limit - i).toNat) i curPx (FP.fin (y i), 1)
        have hrec := ih ((innerAggAuxFP (avgUpdateFP y) limit minX rx (FP.add curPx (FP.fin 1))
            ((limit - i).toNat) i curPx (FP.fin (y i), 1)).1 + 1)
          (innerAggAuxFP (avgUpdateFP y) limit minX rx (FP.add curPx (FP.fin 1))
            ((limit - i).toNat) i curPx (FP.fin (y i), 1)).2.1
        omega
      | NearestSample =>
        simp only [outerAggAuxFP, innerAggFP, if_pos hil, List.length_cons]
        have hge := innerAggAuxFP_le (maxUpdateFP y) limit minX rx (FP.add curPx (FP.fin 1))
          ((limit - i).toNat) i curPx (FP.fin (y i))
        have hrec := ih ((innerAggAuxFP (maxUpdateFP y) limit minX rx (FP.add curPx (FP.fin 1))
            ((limit - i).toNat) i curPx (FP.fin (y i))).1 + 1)
          (innerAggAuxFP (maxUpdateFP y) limit minX rx (FP.add curPx (FP.fin 1))
            ((limit - i).toNat) i curPx (FP.fin (y i))).2.1
        omega
      | Maximum =>
        simp only [outerAggAuxFP, innerAggFP, if_pos hil, List.length_cons]
        have hge := innerAggAuxFP_le (maxUpdateFP y) limit minX rx (FP.add curPx (FP.fin 1))
          ((limit - i).toNat) i curPx (FP.fin (y i))
        have hrec := ih ((innerAggAuxFP (maxUpdateFP y) limit minX rx (FP.add curPx (FP.fin 1))
            ((limit - i).toNat) i curPx (FP.fin (y i))).1 + 1)
          (innerAggAuxFP (maxUpdateFP y) limit minX rx (FP.add curPx (FP.fin 1))
            ((limit - i).toNat) i curPx (FP.fin (y i))).2.1
        omega
    · simp [outerAggAuxFP, hil]

/-- C10: over float semantics, for every aggregation method, frame contents,
sample window and every float ratio (zero, infinite or NaN included — cases in
which the mapped pixel position never advances), the paintWaveform loop
terminates after at most maxSample − minSample outer iterations: the polyline
has at most (maxSample − minSample) + 1 vertices (one start vertex plus one
per outer iteration). -/
theorem paintWaveform_loop_bounded (method : AggregationMethod) (y : ℤ → ℚ)
    (minX maxX : ℤ) (rx amp ry : FP) :
    (paintWaveformVerticesFP method y minX maxX rx amp ry).length
      ≤ (maxX - minX).toNat + 1 := by
  unfold paintWaveformVerticesFP
  rw [List.length_cons]
  have h := outerAggAuxFP_length method y (maxX - 1) minX rx amp ry ((maxX - 1) - minX).toNat
    minX (toPxFromTimeFP minX rx minX)
  omega
